import Mathlib

/-!
Shallow embedding of the word-search puzzle generator of `src/script.js`
(repository martiensk/wordpuzzle).

The generator's only source of nondeterminism is `Math.random()`.  We model the
random source as a stream `rng : Nat → Nat` together with a call counter: the
`n`-th call `Math.floor(Math.random() * k)` is embedded as `rng n % k`, which
ranges over `[0, k)` exactly as the source expression does.  Grid cells hold
`''` (empty) or a single letter in the source; we embed a cell as `Option Char`
with `none` standing for the empty string.  All coordinates are `Int` because
`startX + i * dx` may leave the grid before the bounds check rejects it.
-/

abbrev Cell := Option Char

abbrev Grid := List (List Cell)

abbrev Word := List Char

/-- Reading `grid[y][x]`: out-of-range access yields `none` (never consulted by
the source before a bounds check). -/
def getCell (g : Grid) (x y : Int) : Cell :=
  if 0 ≤ x ∧ 0 ≤ y then (g.getD y.toNat []).getD x.toNat none else none

/-- Writing `grid[y][x] = c`. -/
def setCell (g : Grid) (x y : Int) (c : Char) : Grid :=
  if 0 ≤ x ∧ 0 ≤ y then g.set y.toNat ((g.getD y.toNat []).set x.toNat (some c)) else g

/-- The eight direction vectors `(dx, dy)` of `script.js` lines 36-45, in
source order. -/
def directions : List (Int × Int) :=
  [(0, 1), (1, 0), (1, 1), (1, -1), (0, -1), (-1, 0), (-1, 1), (-1, -1)]

/-- Embedding of `canPlaceWord(grid, word, startX, startY, dx, dy, size)`
(lines 91-108): every letter cell must be in bounds and empty or equal. -/
def canPlaceWord (grid : Grid) (word : Word) (startX startY dx dy : Int) (size : Nat) : Bool :=
  (List.range word.length).all fun i =>
    let x := startX + (i : Int) * dx
    let y := startY + (i : Int) * dy
    if x < 0 ∨ (size : Int) ≤ x ∨ y < 0 ∨ (size : Int) ≤ y then false
    else if getCell grid x y ≠ none ∧ getCell grid x y ≠ some (word.getD i ' ') then false
    else true

/-- Embedding of `placeWord(grid, word, startX, startY, dx, dy)`
(lines 111-117): write each letter along the run. -/
def placeWord (grid : Grid) (word : Word) (startX startY dx dy : Int) : Grid :=
  (List.range word.length).foldl
    (fun g (i : Nat) =>
      setCell g (startX + (i : Int) * dx) (startY + (i : Int) * dy) (word.getD i ' '))
    grid

/-- The alphabet string of `fillEmptyCells` (line 121). -/
def letters : Word :=
  ['A', 'B', 'C', 'D', 'E', 'F', 'G', 'H', 'I', 'J', 'K', 'L', 'M',
   'N', 'O', 'P', 'Q', 'R', 'S', 'T', 'U', 'V', 'W', 'X', 'Y', 'Z']

/-- Inner `x` loop of `fillEmptyCells` over one row: an empty cell consumes one
random draw and receives `letters[rng ctr % 26]`; occupied cells are untouched
and consume nothing. -/
def fillRow (rng : Nat → Nat) : List Cell → Nat → List Cell × Nat
  | [], ctr => ([], ctr)
  | some a :: cs, ctr =>
    let r := fillRow rng cs ctr
    (some a :: r.1, r.2)
  | none :: cs, ctr =>
    let a := letters.getD (rng ctr % letters.length) 'A'
    let r := fillRow rng cs (ctr + 1)
    (some a :: r.1, r.2)

/-- Embedding of `fillEmptyCells(grid)` (lines 120-131), threading the random
counter row by row. -/
def fillEmptyCells (rng : Nat → Nat) : Grid → Nat → Grid × Nat
  | [], ctr => ([], ctr)
  | row :: rows, ctr =>
    let r := fillRow rng row ctr
    let rs := fillEmptyCells rng rows r.2
    (r.1 :: rs.1, rs.2)

/-- The retry budget `maxAttempts = 100` (line 59). -/
def maxAttempts : Nat := 100

/-- Embedding of the `while (!placed && attempts < maxAttempts)` loop
(lines 61-77) for one word: each attempt draws a direction index and a start
cell (three random draws), places the word on the first valid candidate, and
gives up when the fuel (remaining attempts) runs out.  Returns the grid, the
success flag and the final random counter. -/
def tryPlaceWord (rng : Nat → Nat) (size : Nat) (word : Word) :
    Nat → Grid → Nat → Grid × Bool × Nat
  | 0, grid, ctr => (grid, false, ctr)
  | fuel + 1, grid, ctr =>
    let dir := directions.getD (rng ctr % directions.length) (0, 0)
    let startX : Nat := rng (ctr + 1) % size
    let startY : Nat := rng (ctr + 2) % size
    if canPlaceWord grid word startX startY dir.1 dir.2 size then
      (placeWord grid word startX startY dir.1 dir.2, true, ctr + 3)
    else
      tryPlaceWord rng size word fuel grid (ctr + 3)

/-- The two `console.warn` signals of the generator (lines 53 and 80). -/
inductive Warning where
  | tooLong (word : Word)
  | placementFailed (word : Word)
deriving DecidableEq, Repr

/-- State of one `generateWordSearch` run: the grid, the `placedWords`
accumulator, the emitted warnings and the random counter. -/
structure GenState where
  grid : Grid
  placedWords : List Word
  warnings : List Warning
  ctr : Nat
deriving Repr

/-- Body of the `for (const word of sortedWords)` loop (lines 51-82) for a
single word: skip with a warning if the word is longer than the grid, else run
the retry loop and record the outcome. -/
def stepWord (rng : Nat → Nat) (size : Nat) (s : GenState) (word : Word) : GenState :=
  if size < word.length then
    ⟨s.grid, s.placedWords, s.warnings ++ [Warning.tooLong word], s.ctr⟩
  else
    match tryPlaceWord rng size word maxAttempts s.grid s.ctr with
    | (g, true, c) => ⟨g, s.placedWords ++ [word], s.warnings, c⟩
    | (g, false, c) => ⟨g, s.placedWords, s.warnings ++ [Warning.placementFailed word], c⟩

/-- Stable insertion of a word into a list, keeping every strictly longer word
in front of it: the insertion step of the stable descending-length sort. -/
def insertDesc (w : Word) : List Word → List Word
  | [] => [w]
  | x :: xs => if w.length < x.length then x :: insertDesc w xs else w :: x :: xs

/-- Embedding of `[...words].sort((a, b) => b.length - a.length)` (line 48).
ECMAScript `Array.prototype.sort` is stable, so the call denotes the unique
stable sort by descending length, realised here as a stable insertion sort. -/
def sortWordsDesc : List Word → List Word
  | [] => []
  | w :: ws => insertDesc w (sortWordsDesc ws)

/-- The initial state: a `size × size` grid of empty cells (line 34), no placed
words, no warnings, random counter zero. -/
def initState (size : Nat) : GenState :=
  ⟨List.replicate size (List.replicate size (none : Cell)), [], [], 0⟩

/-- Running the word loop over a list of words from a given state. -/
def runFrom (rng : Nat → Nat) (size : Nat) (s : GenState) (ws : List Word) : GenState :=
  ws.foldl (stepWord rng size) s

/-- Embedding of `generateWordSearch(words, size)` (lines 32-88): sort a copy
of the words by descending length, run the placement loop, fill the empty
cells, and return `{ grid, placedWords }`. -/
def generateWordSearch (rng : Nat → Nat) (words : List Word) (size : Nat) : Grid × List Word :=
  ((fillEmptyCells rng (runFrom rng size (initState size) (sortWordsDesc words)).grid
      (runFrom rng size (initState size) (sortWordsDesc words)).ctr).1,
   (runFrom rng size (initState size) (sortWordsDesc words)).placedWords)

/-- Column split of `createPuzzleHTML` (lines 136-138):
`midPoint = Math.ceil(placedWords.length / 2)`, left = `slice(0, midPoint)`,
right = `slice(midPoint)`. -/
def splitColumnsHTML (placedWords : List Word) : List Word × List Word :=
  let midPoint := (placedWords.length + 1) / 2
  (placedWords.take midPoint, placedWords.drop midPoint)

/-- Column split of `createPDFDirectly` (lines 574-576), textually identical to
the one in `createPuzzleHTML`. -/
def splitColumnsPDF (placedWords : List Word) : List Word × List Word :=
  let midPoint := (placedWords.length + 1) / 2
  (placedWords.take midPoint, placedWords.drop midPoint)

/-- Well-formedness: the grid is a `size × size` matrix. -/
def gridWF (g : Grid) (size : Nat) : Prop :=
  g.length = size ∧ ∀ row ∈ g, row.length = size

/-- Refinement between grid states: every cell already holding a letter keeps
exactly that letter. -/
def refines (g g2 : Grid) : Prop :=
  ∀ x y : Int, ∀ c : Char, getCell g x y = some c → getCell g2 x y = some c

/-- A word is traceable in a grid: some start cell inside `[0, size)²` and one
of the eight directions spell the word letter by letter. -/
def traceable (g : Grid) (size : Nat) (w : Word) : Prop :=
  ∃ d ∈ directions, ∃ sx, sx < size ∧ ∃ sy, sy < size ∧
    ∀ i, i < w.length →
      getCell g ((sx : Int) + (i : Int) * d.1) ((sy : Int) + (i : Int) * d.2) =
        some (w.getD i ' ')

instance traceableDecidable (g : Grid) (size : Nat) (w : Word) : Decidable (traceable g size w) := by
  unfold traceable
  infer_instance

/-- Every letter present in the grid belongs to the uppercase alphabet. -/
def gridLetters (g : Grid) : Prop :=
  ∀ row ∈ g, ∀ cell ∈ row, ∀ c : Char, cell = some c → c ∈ letters

/-- A minimal mutable-array heap: each array id names a list of words.  Used to
state the frame property of the `[...words]` copy on line 48. -/
def Heap := Nat → List Word

/-- Effect of `const sortedWords = [...words].sort(...)` on the heap: the
spread allocates a fresh array holding a copy of `words`, and `sort` then
mutates that fresh array in place; the source array is untouched. -/
def spreadAndSort (h : Heap) (src fresh : Nat) : Heap :=
  fun i => if i = fresh then sortWordsDesc (h src) else h i

/-- `generateWordSearch` with the caller's word array living on the heap at id
`src`; the sorted copy lives at the fresh id. -/
def generateWordSearchHeap (rng : Nat → Nat) (h : Heap) (src fresh : Nat) (size : Nat) :
    (Grid × List Word) × Heap :=
  (((fillEmptyCells rng
        (runFrom rng size (initState size) (spreadAndSort h src fresh fresh)).grid
        (runFrom rng size (initState size) (spreadAndSort h src fresh fresh)).ctr).1,
    (runFrom rng size (initState size) (spreadAndSort h src fresh fresh)).placedWords),
   spreadAndSort h src fresh)

/-- A fixed, everywhere-zero random stream, used to evaluate the generator on
concrete inputs. -/
def rngZero : Nat → Nat := fun _ => 0

/-- A concrete three-letter word for concrete evaluations. -/
def catWord : Word := ['C', 'A', 'T']

/-! Basic lemmas about single-cell reads and writes. -/

theorem getD_set_self {α : Type} (l : List α) (i : Nat) (a d : α) (h : i < l.length) :
    (l.set i a).getD i d = a := by
  rw [List.getD_eq_getElem?_getD, List.getElem?_set_self h]
  rfl

theorem getD_set_ne {α : Type} (l : List α) (i j : Nat) (a d : α) (h : i ≠ j) :
    (l.set i a).getD j d = l.getD j d := by
  rw [List.getD_eq_getElem?_getD, List.getElem?_set_ne h, ← List.getD_eq_getElem?_getD]

theorem getD_mem {α : Type} (l : List α) (i : Nat) (d : α) (h : i < l.length) :
    l.getD i d ∈ l := by
  rw [List.getD_eq_getElem?_getD, List.getElem?_eq_getElem h, Option.getD_some]
  exact List.getElem_mem h

theorem getCell_setCell_ne (g : Grid) (x y x2 y2 : Int) (c : Char)
    (h : x2 ≠ x ∨ y2 ≠ y) : getCell (setCell g x y c) x2 y2 = getCell g x2 y2 := by
  unfold getCell setCell
  split
  case isFalse => rfl
  case isTrue hxy =>
    split
    case isFalse => rfl
    case isTrue hxy2 =>
      by_cases hlen : y.toNat < g.length
      · by_cases hy : y2.toNat = y.toNat
        · have hyy : y2 = y := by omega
          have hx : x2 ≠ x := by
            rcases h with h | h
            · exact h
            · exact absurd hyy h
          have hxx : x2.toNat ≠ x.toNat := by omega
          rw [hy, getD_set_self g y.toNat _ [] hlen, getD_set_ne _ _ _ _ _ (Ne.symm hxx)]
        · rw [getD_set_ne g y.toNat y2.toNat _ [] (fun he => hy he.symm)]
      · rw [List.set_eq_of_length_le (Nat.le_of_not_lt hlen)]

theorem getCell_setCell_self (g : Grid) (x y : Int) (c : Char)
    (hx : 0 ≤ x) (hy : 0 ≤ y) (hylen : y.toNat < g.length)
    (hxlen : x.toNat < (g.getD y.toNat []).length) :
    getCell (setCell g x y c) x y = some c := by
  unfold getCell setCell
  rw [if_pos ⟨hx, hy⟩, if_pos ⟨hx, hy⟩]
  rw [getD_set_self g y.toNat _ [] hylen, getD_set_self _ x.toNat _ none hxlen]

theorem setCell_wf (g : Grid) (x y : Int) (c : Char) (size : Nat) (hwf : gridWF g size) :
    gridWF (setCell g x y c) size := by
  obtain ⟨hlen, hrows⟩ := hwf
  unfold setCell
  split
  case isFalse => exact ⟨hlen, hrows⟩
  case isTrue =>
    by_cases hy : y.toNat < g.length
    · refine ⟨by simpa using hlen, ?_⟩
      intro row hrow
      rcases List.mem_or_eq_of_mem_set hrow with hmem | heq
      · exact hrows row hmem
      · subst heq
        rw [List.length_set]
        exact hrows _ (getD_mem g y.toNat [] hy)
    · rw [List.set_eq_of_length_le (Nat.le_of_not_lt hy)]
      exact ⟨hlen, hrows⟩

theorem setCell_letters (g : Grid) (x y : Int) (c : Char)
    (hg : gridLetters g) (hc : c ∈ letters) : gridLetters (setCell g x y c) := by
  unfold setCell
  split
  case isFalse => exact hg
  case isTrue =>
    by_cases hy : y.toNat < g.length
    · intro row hrow cell hcell a ha
      rcases List.mem_or_eq_of_mem_set hrow with hmem | heq
      · exact hg row hmem cell hcell a ha
      · subst heq
        rcases List.mem_or_eq_of_mem_set hcell with hmem2 | heq2
        · exact hg _ (getD_mem g y.toNat [] hy) cell hmem2 a ha
        · subst heq2
          cases ha
          exact hc
    · rw [List.set_eq_of_length_le (Nat.le_of_not_lt hy)]
      exact hg

/-! Characterisation of the validity check and facts about the directions. -/

theorem canPlaceWord_iff (g : Grid) (w : Word) (startX startY dx dy : Int) (size : Nat) :
    canPlaceWord g w startX startY dx dy size = true ↔
      ∀ i, i < w.length →
        0 ≤ startX + (i : Int) * dx ∧ startX + (i : Int) * dx < size ∧
        0 ≤ startY + (i : Int) * dy ∧ startY + (i : Int) * dy < size ∧
        (getCell g (startX + (i : Int) * dx) (startY + (i : Int) * dy) = none ∨
         getCell g (startX + (i : Int) * dx) (startY + (i : Int) * dy) =
           some (w.getD i ' ')) := by
  unfold canPlaceWord
  rw [List.all_eq_true]
  constructor
  · intro h i hi
    have hb := h i (List.mem_range.mpr hi)
    dsimp only at hb
    split at hb
    case isTrue => exact absurd hb (by simp)
    case isFalse h1 =>
      split at hb
      case isTrue => exact absurd hb (by simp)
      case isFalse h2 =>
        push_neg at h1 h2
        refine ⟨h1.1, h1.2.1, h1.2.2.1, h1.2.2.2, ?_⟩
        by_cases hcell : getCell g (startX + (i : Int) * dx) (startY + (i : Int) * dy) = none
        · exact Or.inl hcell
        · exact Or.inr (h2 hcell)
  · intro h i hi
    rw [List.mem_range] at hi
    obtain ⟨h1, h2, h3, h4, h5⟩ := h i hi
    dsimp only
    rw [if_neg (by push_neg; exact ⟨h1, h2, h3, h4⟩), if_neg ?_]
    push_neg
    intro hne
    rcases h5 with h5 | h5
    · exact absurd h5 hne
    · exact h5

theorem mem_directions_ne_zero (dx dy : Int) (h : (dx, dy) ∈ directions) :
    ¬(dx = 0 ∧ dy = 0) := by
  rintro ⟨rfl, rfl⟩
  exact absurd h (by decide)

theorem directions_getD_mem (n : Nat) :
    directions.getD (n % directions.length) (0, 0) ∈ directions :=
  getD_mem directions (n % directions.length) (0, 0)
    (Nat.mod_lt n (by simp [directions]))

theorem run_positions_injective (startX startY dx dy : Int)
    (hd : ¬(dx = 0 ∧ dy = 0)) (i j : Nat)
    (hx : startX + (i : Int) * dx = startX + (j : Int) * dx)
    (hy : startY + (i : Int) * dy = startY + (j : Int) * dy) : i = j := by
  have hx2 : ((i : Int) - j) * dx = 0 := by ring_nf; linarith
  have hy2 : ((i : Int) - j) * dy = 0 := by ring_nf; linarith
  rcases mul_eq_zero.mp hx2 with h | h
  · omega
  · rcases mul_eq_zero.mp hy2 with h2 | h2
    · omega
    · exact absurd ⟨h, h2⟩ hd

/-! Lemmas about `placeWord`: it spells the word along its run, never changes a
cell that already holds a letter (thanks to `canPlaceWord`), and preserves the
grid shape. -/

theorem foldl_setCell_out (px py : Nat → Int) (ch : Nat → Char) :
    ∀ (l : List Nat) (g : Grid) (x y : Int),
      (∀ i ∈ l, px i ≠ x ∨ py i ≠ y) →
      getCell (l.foldl (fun g2 i => setCell g2 (px i) (py i) (ch i)) g) x y = getCell g x y := by
  intro l
  induction l with
  | nil => intro g x y _; rfl
  | cons a t ih =>
    intro g x y h
    simp only [List.foldl_cons]
    rw [ih _ x y (fun i hi => h i (List.mem_cons_of_mem a hi))]
    refine getCell_setCell_ne _ _ _ _ _ _ ?_
    rcases h a (List.mem_cons_self _ _) with hne | hne
    · exact Or.inl (Ne.symm hne)
    · exact Or.inr (Ne.symm hne)

theorem foldl_setCell_spec (size : Nat) (px py : Nat → Int) (ch : Nat → Char) :
    ∀ (l : List Nat) (g : Grid),
      l.Nodup →
      (∀ i ∈ l, ∀ j ∈ l, px i = px j → py i = py j → i = j) →
      (∀ i ∈ l, 0 ≤ px i ∧ px i < size ∧ 0 ≤ py i ∧ py i < size) →
      gridWF g size →
      (∀ i ∈ l, getCell g (px i) (py i) = none ∨ getCell g (px i) (py i) = some (ch i)) →
      refines g (l.foldl (fun g2 i => setCell g2 (px i) (py i) (ch i)) g) ∧
      gridWF (l.foldl (fun g2 i => setCell g2 (px i) (py i) (ch i)) g) size ∧
      ∀ j ∈ l,
        getCell (l.foldl (fun g2 i => setCell g2 (px i) (py i) (ch i)) g) (px j) (py j) =
          some (ch j) := by
  intro l
  induction l with
  | nil =>
    intro g _ _ _ hwf _
    exact ⟨fun x y c hc => hc, hwf, by simp⟩
  | cons a t ih =>
    intro g hnodup hinj hbounds hwf hpre
    have hamem : a ∈ a :: t := List.mem_cons_self _ _
    have hanotin : a ∉ t := (List.nodup_cons.mp hnodup).1
    have hbounds_a := hbounds a hamem
    have hselflen : (py a).toNat < g.length := by
      have := hwf.1
      omega
    have hrowlen : (px a).toNat < (g.getD (py a).toNat []).length := by
      have := hwf.2 _ (getD_mem g (py a).toNat [] hselflen)
      omega
    have hself : getCell (setCell g (px a) (py a) (ch a)) (px a) (py a) = some (ch a) :=
      getCell_setCell_self g (px a) (py a) (ch a) hbounds_a.1 hbounds_a.2.2.1 hselflen hrowlen
    have hposne : ∀ i ∈ t, px i ≠ px a ∨ py i ≠ py a := by
      intro i hi
      by_contra hcon
      push_neg at hcon
      exact hanotin (hinj i (List.mem_cons_of_mem a hi) a hamem hcon.1 hcon.2 ▸ hi)
    have hsame : ∀ i ∈ t,
        getCell (setCell g (px a) (py a) (ch a)) (px i) (py i) = getCell g (px i) (py i) := by
      intro i hi
      exact getCell_setCell_ne _ _ _ _ _ _ (hposne i hi)
    obtain ⟨ihref, ihwf, ihget⟩ := ih (setCell g (px a) (py a) (ch a))
      (List.nodup_cons.mp hnodup).2
      (fun i hi j hj => hinj i (List.mem_cons_of_mem a hi) j (List.mem_cons_of_mem a hj))
      (fun i hi => hbounds i (List.mem_cons_of_mem a hi))
      (setCell_wf g (px a) (py a) (ch a) size hwf)
      (fun i hi => hsame i hi ▸ hpre i (List.mem_cons_of_mem a hi))
    simp only [List.foldl_cons]
    refine ⟨?_, ihwf, ?_⟩
    · intro x y c hc
      by_cases hxy : px a = x ∧ py a = y
      · rcases hpre a hamem with hpa | hpa
        · rw [hxy.1, hxy.2] at hpa
          rw [hpa] at hc
          exact absurd hc (by simp)
        · rw [hxy.1, hxy.2] at hpa
          rw [hpa] at hc
          cases hc
          refine ihref _ _ _ ?_
          rw [← hxy.1, ← hxy.2]
          exact hself
      · refine ihref x y c ?_
        rw [getCell_setCell_ne _ _ _ _ _ _ ?_]
        · exact hc
        · by_contra hcon
          push_neg at hcon
          exact hxy ⟨hcon.1.symm, hcon.2.symm⟩
    · intro j hj
      rcases List.mem_cons.mp hj with rfl | hjt
      · rw [foldl_setCell_out px py ch t _ (px j) (py j) (hposne)]
        exact hself
      · exact ihget j hjt

theorem placeWord_spec (g : Grid) (w : Word) (startX startY dx dy : Int) (size : Nat)
    (hwf : gridWF g size) (hd : (dx, dy) ∈ directions)
    (hc : canPlaceWord g w startX startY dx dy size = true) :
    refines g (placeWord g w startX startY dx dy) ∧
    gridWF (placeWord g w startX startY dx dy) size ∧
    ∀ i, i < w.length →
      getCell (placeWord g w startX startY dx dy)
        (startX + (i : Int) * dx) (startY + (i : Int) * dy) = some (w.getD i ' ') := by
  have hiff := (canPlaceWord_iff g w startX startY dx dy size).mp hc
  have h := foldl_setCell_spec size
    (fun i => startX + (i : Int) * dx) (fun i => startY + (i : Int) * dy)
    (fun i => w.getD i ' ') (List.range w.length) g
    (List.nodup_range _)
    (fun i hi j hj hx hy =>
      run_positions_injective startX startY dx dy (mem_directions_ne_zero dx dy hd) i j hx hy)
    (fun i hi => by
      obtain ⟨h1, h2, h3, h4, _⟩ := hiff i (List.mem_range.mp hi)
      exact ⟨h1, h2, h3, h4⟩)
    hwf
    (fun i hi => (hiff i (List.mem_range.mp hi)).2.2.2.2)
  refine ⟨h.1, h.2.1, fun i hi => h.2.2 i (List.mem_range.mpr hi)⟩

theorem foldl_setCell_letters (px py : Nat → Int) (ch : Nat → Char) :
    ∀ (l : List Nat) (g : Grid),
      gridLetters g → (∀ i ∈ l, ch i ∈ letters) →
      gridLetters (l.foldl (fun g2 i => setCell g2 (px i) (py i) (ch i)) g) := by
  intro l
  induction l with
  | nil => intro g hg _; exact hg
  | cons a t ih =>
    intro g hg hch
    simp only [List.foldl_cons]
    exact ih _ (setCell_letters _ _ _ _ hg (hch a (List.mem_cons_self _ _)))
      (fun i hi => hch i (List.mem_cons_of_mem a hi))

theorem placeWord_letters (g : Grid) (w : Word) (startX startY dx dy : Int)
    (hg : gridLetters g) (hw : ∀ c ∈ w, c ∈ letters) :
    gridLetters (placeWord g w startX startY dx dy) := by
  refine foldl_setCell_letters _ _ _ (List.range w.length) g hg ?_
  intro i hi
  exact hw _ (getD_mem w i ' ' (List.mem_range.mp hi))

/-! Lemmas about the bounded retry loop and the per-word step. -/

theorem tryPlaceWord_succ (rng : Nat → Nat) (size : Nat) (w : Word) (fuel : Nat)
    (g : Grid) (ctr : Nat) :
    tryPlaceWord rng size w (fuel + 1) g ctr =
      (if canPlaceWord g w ((rng (ctr + 1) % size : Nat) : Int)
          ((rng (ctr + 2) % size : Nat) : Int)
          (directions.getD (rng ctr % directions.length) (0, 0)).1
          (directions.getD (rng ctr % directions.length) (0, 0)).2 size then
        (placeWord g w ((rng (ctr + 1) % size : Nat) : Int) ((rng (ctr + 2) % size : Nat) : Int)
          (directions.getD (rng ctr % directions.length) (0, 0)).1
          (directions.getD (rng ctr % directions.length) (0, 0)).2, true, ctr + 3)
      else
        tryPlaceWord rng size w fuel g (ctr + 3)) := rfl

theorem tryPlaceWord_ctr_le (rng : Nat → Nat) (size : Nat) (w : Word) :
    ∀ (fuel : Nat) (g : Grid) (ctr : Nat),
      (tryPlaceWord rng size w fuel g ctr).2.2 ≤ ctr + 3 * fuel := by
  intro fuel
  induction fuel with
  | zero => intro g ctr; exact Nat.le_refl _
  | succ n ih =>
    intro g ctr
    rw [tryPlaceWord_succ]
    split
    · simp only
      omega
    · have := ih g (ctr + 3)
      omega

theorem tryPlaceWord_false_grid (rng : Nat → Nat) (size : Nat) (w : Word) :
    ∀ (fuel : Nat) (g : Grid) (ctr : Nat),
      (tryPlaceWord rng size w fuel g ctr).2.1 = false →
      (tryPlaceWord rng size w fuel g ctr).1 = g := by
  intro fuel
  induction fuel with
  | zero => intro g ctr _; rfl
  | succ n ih =>
    intro g ctr h
    rw [tryPlaceWord_succ] at h ⊢
    by_cases hcan : canPlaceWord g w ((rng (ctr + 1) % size : Nat) : Int)
        ((rng (ctr + 2) % size : Nat) : Int)
        (directions.getD (rng ctr % directions.length) (0, 0)).1
        (directions.getD (rng ctr % directions.length) (0, 0)).2 size = true
    · rw [if_pos hcan] at h
      exact absurd h (by simp)
    · rw [if_neg hcan] at h ⊢
      exact ih g (ctr + 3) h

theorem tryPlaceWord_true_spec (rng : Nat → Nat) (size : Nat) (w : Word) :
    ∀ (fuel : Nat) (g : Grid) (ctr : Nat),
      (tryPlaceWord rng size w fuel g ctr).2.1 = true →
      ∃ (sx sy : Nat) (dx dy : Int),
        (dx, dy) ∈ directions ∧ (0 < size → sx < size ∧ sy < size) ∧
        canPlaceWord g w (sx : Int) (sy : Int) dx dy size = true ∧
        (tryPlaceWord rng size w fuel g ctr).1 = placeWord g w (sx : Int) (sy : Int) dx dy := by
  intro fuel
  induction fuel with
  | zero => intro g ctr h; exact absurd h (by simp [tryPlaceWord])
  | succ n ih =>
    intro g ctr h
    rw [tryPlaceWord_succ] at h ⊢
    split at h
    case isTrue hcan =>
      refine ⟨rng (ctr + 1) % size, rng (ctr + 2) % size,
        (directions.getD (rng ctr % directions.length) (0, 0)).1,
        (directions.getD (rng ctr % directions.length) (0, 0)).2, ?_, ?_, hcan, ?_⟩
      · rw [Prod.mk.eta]
        exact directions_getD_mem (rng ctr)
      · intro hsize
        exact ⟨Nat.mod_lt _ hsize, Nat.mod_lt _ hsize⟩
      · rw [if_pos hcan]
    case isFalse hcan =>
      rw [if_neg hcan]
      exact ih g (ctr + 3) h

theorem stepWord_tooLong (rng : Nat → Nat) (size : Nat) (s : GenState) (w : Word)
    (h : size < w.length) :
    stepWord rng size s w =
      ⟨s.grid, s.placedWords, s.warnings ++ [Warning.tooLong w], s.ctr⟩ := by
  unfold stepWord
  rw [if_pos h]

theorem refines_trans (g1 g2 g3 : Grid) (h1 : refines g1 g2) (h2 : refines g2 g3) :
    refines g1 g3 :=
  fun x y c hc => h2 x y c (h1 x y c hc)

theorem traceable_mono (g g2 : Grid) (size : Nat) (w : Word)
    (href : refines g g2) (ht : traceable g size w) : traceable g2 size w := by
  obtain ⟨d, hd, sx, hsx, sy, hsy, hcells⟩ := ht
  exact ⟨d, hd, sx, hsx, sy, hsy, fun i hi => href _ _ _ (hcells i hi)⟩

theorem stepWord_full (rng : Nat → Nat) (size : Nat) (s : GenState) (w : Word)
    (hwf : gridWF s.grid size) :
    gridWF (stepWord rng size s w).grid size ∧
    refines s.grid (stepWord rng size s w).grid ∧
    (0 < size → ∀ v ∈ (stepWord rng size s w).placedWords,
        v ∈ s.placedWords ∨ traceable (stepWord rng size s w).grid size v) ∧
    ((∀ c ∈ w, c ∈ letters) → gridLetters s.grid → gridLetters (stepWord rng size s w).grid) := by
  by_cases hlen : size < w.length
  · rw [stepWord_tooLong rng size s w hlen]
    exact ⟨hwf, fun x y c hc => hc, fun _ v hv => Or.inl hv, fun _ hg => hg⟩
  · unfold stepWord
    rw [if_neg hlen]
    rcases htp : tryPlaceWord rng size w maxAttempts s.grid s.ctr with ⟨g2, b, c2⟩
    cases b
    · have hg : g2 = s.grid := by
        have := tryPlaceWord_false_grid rng size w maxAttempts s.grid s.ctr (by rw [htp])
        rw [htp] at this
        exact this
      subst hg
      exact ⟨hwf, fun x y c hc => hc, fun _ v hv => Or.inl hv, fun _ hg => hg⟩
    · obtain ⟨sx, sy, dx, dy, hdmem, hbnds, hcan, hplace⟩ :=
        tryPlaceWord_true_spec rng size w maxAttempts s.grid s.ctr (by rw [htp])
      rw [htp] at hplace
      subst hplace
      obtain ⟨href, hwf2, hget⟩ := placeWord_spec s.grid w (sx : Int) (sy : Int) dx dy size hwf hdmem hcan
      refine ⟨hwf2, href, ?_, ?_⟩
      · intro hsize v hv
        rcases List.mem_append.mp hv with hv | hv
        · exact Or.inl hv
        · rcases List.mem_singleton.mp hv with rfl
          refine Or.inr ⟨(dx, dy), hdmem, sx, (hbnds hsize).1, sy, (hbnds hsize).2, ?_⟩
          intro i hi
          exact hget i hi
      · intro hw hg
        exact placeWord_letters s.grid w (sx : Int) (sy : Int) dx dy hg hw

theorem runFrom_full (rng : Nat → Nat) (size : Nat) :
    ∀ (l : List Word) (s : GenState), gridWF s.grid size →
      gridWF (runFrom rng size s l).grid size ∧
      refines s.grid (runFrom rng size s l).grid ∧
      (0 < size → (∀ v ∈ s.placedWords, traceable s.grid size v) →
        ∀ v ∈ (runFrom rng size s l).placedWords,
          traceable (runFrom rng size s l).grid size v) ∧
      ((∀ w ∈ l, ∀ c ∈ w, c ∈ letters) → gridLetters s.grid →
        gridLetters (runFrom rng size s l).grid) := by
  intro l
  induction l with
  | nil =>
    intro s hwf
    exact ⟨hwf, fun x y c hc => hc, fun _ hall => hall, fun _ hg => hg⟩
  | cons w l ih =>
    intro s hwf
    obtain ⟨swf, sref, strace, slet⟩ := stepWord_full rng size s w hwf
    obtain ⟨iwf, iref, itrace, ilet⟩ := ih (stepWord rng size s w) swf
    have hrun : runFrom rng size s (w :: l) = runFrom rng size (stepWord rng size s w) l := rfl
    rw [hrun]
    refine ⟨iwf, refines_trans _ _ _ sref iref, ?_, ?_⟩
    · intro hsize hall
      refine itrace hsize ?_
      intro v hv
      rcases strace hsize v hv with hv2 | hv2
      · exact traceable_mono _ _ size v sref (hall v hv2)
      · exact hv2
    · intro hws hg
      exact ilet (fun w2 hw2 => hws w2 (List.mem_cons_of_mem w hw2))
        (slet (hws w (List.mem_cons_self _ _)) hg)

theorem initState_wf (size : Nat) : gridWF (initState size).grid size := by
  constructor
  · simp [initState]
  · intro row hrow
    rw [List.eq_of_mem_replicate hrow]
    simp

theorem initState_letters (size : Nat) : gridLetters (initState size).grid := by
  intro row hrow cell hcell a ha
  rw [List.eq_of_mem_replicate hrow] at hcell
  rw [List.eq_of_mem_replicate hcell] at ha
  cases ha

/-! Lemmas about the noise fill: it preserves row lengths, keeps every letter
already present, and leaves every cell holding a letter of the alphabet. -/

theorem fillRow_length (rng : Nat → Nat) :
    ∀ (row : List Cell) (ctr : Nat), (fillRow rng row ctr).1.length = row.length := by
  intro row
  induction row with
  | nil => intro ctr; rfl
  | cons c cs ih =>
    intro ctr
    cases c
    · simp [fillRow, ih]
    · simp [fillRow, ih]

theorem fillRow_getD_some (rng : Nat → Nat) :
    ∀ (row : List Cell) (ctr j : Nat) (a : Char),
      row.getD j none = some a → (fillRow rng row ctr).1.getD j none = some a := by
  intro row
  induction row with
  | nil => intro ctr j a h; simp at h
  | cons c cs ih =>
    intro ctr j a h
    cases c with
    | none =>
      cases j with
      | zero => simp at h
      | succ j =>
        simp only [List.getD_cons_succ] at h
        simpa [fillRow] using ih (ctr + 1) j a h
    | some b =>
      cases j with
      | zero => simpa [fillRow] using h
      | succ j =>
        simp only [List.getD_cons_succ] at h
        simpa [fillRow] using ih ctr j a h

theorem fillRow_cells (rng : Nat → Nat) :
    ∀ (row : List Cell) (ctr : Nat), ∀ cell ∈ (fillRow rng row ctr).1,
      ∃ a, cell = some a ∧ (some a ∈ row ∨ a ∈ letters) := by
  intro row
  induction row with
  | nil => intro ctr cell h; simp [fillRow] at h
  | cons c cs ih =>
    intro ctr cell h
    cases c with
    | none =>
      simp only [fillRow, List.mem_cons] at h
      rcases h with rfl | h
      · refine ⟨_, rfl, Or.inr ?_⟩
        exact getD_mem letters _ 'A' (Nat.mod_lt _ (by simp [letters]))
      · obtain ⟨a, ha, hmem⟩ := ih (ctr + 1) cell h
        rcases hmem with hmem | hmem
        · exact ⟨a, ha, Or.inl (List.mem_cons_of_mem _ hmem)⟩
        · exact ⟨a, ha, Or.inr hmem⟩
    | some b =>
      simp only [fillRow, List.mem_cons] at h
      rcases h with rfl | h
      · exact ⟨b, rfl, Or.inl (List.mem_cons_self _ _)⟩
      · obtain ⟨a, ha, hmem⟩ := ih ctr cell h
        rcases hmem with hmem | hmem
        · exact ⟨a, ha, Or.inl (List.mem_cons_of_mem _ hmem)⟩
        · exact ⟨a, ha, Or.inr hmem⟩

theorem fillEmptyCells_length (rng : Nat → Nat) :
    ∀ (g : Grid) (ctr : Nat), (fillEmptyCells rng g ctr).1.length = g.length := by
  intro g
  induction g with
  | nil => intro ctr; rfl
  | cons row rows ih => intro ctr; simp [fillEmptyCells, ih]

theorem fillEmptyCells_rows (rng : Nat → Nat) :
    ∀ (g : Grid) (ctr : Nat), ∀ row2 ∈ (fillEmptyCells rng g ctr).1,
      ∃ row ∈ g, ∃ c0, row2 = (fillRow rng row c0).1 := by
  intro g
  induction g with
  | nil => intro ctr row2 h; simp [fillEmptyCells] at h
  | cons row rows ih =>
    intro ctr row2 h
    simp only [fillEmptyCells, List.mem_cons] at h
    rcases h with rfl | h
    · exact ⟨row, List.mem_cons_self _ _, ctr, rfl⟩
    · obtain ⟨r, hr, c0, heq⟩ := ih _ row2 h
      exact ⟨r, List.mem_cons_of_mem _ hr, c0, heq⟩

theorem fillEmptyCells_getD (rng : Nat → Nat) :
    ∀ (g : Grid) (ctr y : Nat), ∃ c0,
      (fillEmptyCells rng g ctr).1.getD y [] = (fillRow rng (g.getD y []) c0).1 := by
  intro g
  induction g with
  | nil =>
    intro ctr y
    exact ⟨0, by cases y <;> rfl⟩
  | cons row rows ih =>
    intro ctr y
    cases y with
    | zero => exact ⟨ctr, rfl⟩
    | succ y =>
      obtain ⟨c0, hc0⟩ := ih (fillRow rng row ctr).2 y
      exact ⟨c0, by simpa [fillEmptyCells] using hc0⟩

theorem fillEmptyCells_refines (rng : Nat → Nat) (g : Grid) (ctr : Nat) :
    refines g (fillEmptyCells rng g ctr).1 := by
  intro x y c hc
  unfold getCell at hc ⊢
  split at hc
  case isFalse => exact absurd hc (by simp)
  case isTrue hxy =>
    rw [if_pos hxy]
    obtain ⟨c0, hc0⟩ := fillEmptyCells_getD rng g ctr y.toNat
    rw [hc0]
    exact fillRow_getD_some rng (g.getD y.toNat []) c0 x.toNat c hc

/-! Lemmas about the stable descending-length sort. -/

theorem mem_insertDesc (w a : Word) :
    ∀ (l : List Word), a ∈ insertDesc w l ↔ a = w ∨ a ∈ l := by
  intro l
  induction l with
  | nil => simp [insertDesc]
  | cons x xs ih =>
    unfold insertDesc
    split
    · simp only [List.mem_cons, ih]
      tauto
    · simp only [List.mem_cons]

theorem mem_sortWordsDesc (a : Word) :
    ∀ (l : List Word), a ∈ sortWordsDesc l ↔ a ∈ l := by
  intro l
  induction l with
  | nil => simp [sortWordsDesc]
  | cons w ws ih =>
    unfold sortWordsDesc
    rw [mem_insertDesc, ih, List.mem_cons]

theorem pairwise_insertDesc (w : Word) :
    ∀ (l : List Word), l.Pairwise (fun a b => b.length ≤ a.length) →
      (insertDesc w l).Pairwise (fun a b => b.length ≤ a.length) := by
  intro l
  induction l with
  | nil => intro _; simp [insertDesc]
  | cons x xs ih =>
    intro hp
    rw [List.pairwise_cons] at hp
    unfold insertDesc
    split
    case isTrue hlt =>
      rw [List.pairwise_cons]
      refine ⟨?_, ih hp.2⟩
      intro b hb
      rcases (mem_insertDesc w b xs).mp hb with rfl | hb
      · omega
      · exact hp.1 b hb
    case isFalse hlt =>
      rw [List.pairwise_cons]
      refine ⟨?_, List.pairwise_cons.mpr hp⟩
      intro b hb
      rcases List.mem_cons.mp hb with rfl | hb
      · omega
      · have := hp.1 b hb
        omega

theorem sortWordsDesc_pairwise :
    ∀ (l : List Word), (sortWordsDesc l).Pairwise (fun a b => b.length ≤ a.length) := by
  intro l
  induction l with
  | nil => simp [sortWordsDesc]
  | cons w ws ih => exact pairwise_insertDesc w (sortWordsDesc ws) ih

theorem filter_insertDesc (w : Word) (n : Nat) :
    ∀ (l : List Word),
      (insertDesc w l).filter (fun v => v.length == n) =
        if w.length == n then w :: l.filter (fun v => v.length == n)
        else l.filter (fun v => v.length == n) := by
  intro l
  induction l with
  | nil =>
    unfold insertDesc
    split <;> simp_all
  | cons x xs ih =>
    unfold insertDesc
    split
    case isTrue hlt =>
      rw [List.filter_cons, List.filter_cons]
      by_cases hw : w.length = n
      · have hx : ¬(x.length == n) = true := by
          simp only [beq_iff_eq]
          omega
        rw [if_neg hx, if_neg hx, ih, if_pos (by simpa using hw)]
      · have hw2 : ¬(w.length == n) = true := by simpa using hw
        rw [ih, if_neg hw2, if_neg hw2]
    case isFalse hlt =>
      by_cases hw : (w.length == n) = true
      · rw [if_pos hw, List.filter_cons, if_pos hw]
      · rw [if_neg hw, List.filter_cons, if_neg hw, List.filter_cons]

theorem filter_sortWordsDesc (n : Nat) :
    ∀ (l : List Word),
      (sortWordsDesc l).filter (fun v => v.length == n) =
        l.filter (fun v => v.length == n) := by
  intro l
  induction l with
  | nil => rfl
  | cons w ws ih =>
    unfold sortWordsDesc
    rw [filter_insertDesc, List.filter_cons, ih]

/-! Decomposition of the placed-word list produced by the word loop. -/

theorem stepWord_placed_cases (rng : Nat → Nat) (size : Nat) (s : GenState) (w : Word) :
    (stepWord rng size s w).placedWords = s.placedWords ∨
    ((stepWord rng size s w).placedWords = s.placedWords ++ [w] ∧ w.length ≤ size) := by
  by_cases hlen : size < w.length
  · rw [stepWord_tooLong rng size s w hlen]
    exact Or.inl rfl
  · unfold stepWord
    rw [if_neg hlen]
    rcases htp : tryPlaceWord rng size w maxAttempts s.grid s.ctr with ⟨g2, b, c2⟩
    cases b
    · exact Or.inl rfl
    · exact Or.inr ⟨rfl, Nat.le_of_not_lt hlen⟩

theorem runFrom_placed_spec (rng : Nat → Nat) (size : Nat) :
    ∀ (l : List Word) (s : GenState), ∃ t,
      (runFrom rng size s l).placedWords = s.placedWords ++ t ∧
      List.Sublist t l ∧ ∀ w ∈ t, w.length ≤ size := by
  intro l
  induction l with
  | nil => intro s; exact ⟨[], by simp [runFrom], List.nil_sublist [], by simp⟩
  | cons w l ih =>
    intro s
    have hrun : runFrom rng size s (w :: l) = runFrom rng size (stepWord rng size s w) l := rfl
    obtain ⟨t, ht, hsub, hlen⟩ := ih (stepWord rng size s w)
    rcases stepWord_placed_cases rng size s w with hp | ⟨hp, hwlen⟩
    · refine ⟨t, ?_, List.Sublist.cons w hsub, hlen⟩
      rw [hrun, ht, hp]
    · refine ⟨w :: t, ?_, List.Sublist.cons₂ w hsub, ?_⟩
      · rw [hrun, ht, hp, List.append_assoc]
        rfl
      · intro v hv
        rcases List.mem_cons.mp hv with rfl | hv
        · exact hwlen
        · exact hlen v hv

/-! The claims. -/

/-- C1: every word in the `placedWords` list returned by
`generateWordSearch(words, size)` is traceable in the returned grid: there are
a start cell `(x, y)` with `0 ≤ x, y < size` and a direction `(dx, dy)` among
the eight unit vectors such that for every index `i < word.length` the grid
holds `word[i]` at `(x + i·dx, y + i·dy)`.  The spec constrains `size` to be a
positive integer (section 4.1), which is the only hypothesis used. -/
theorem claim1_placed_words_traceable (rng : Nat → Nat) (words : List Word) (size : Nat)
    (hsize : 0 < size) :
    ∀ w ∈ (generateWordSearch rng words size).2,
      traceable (generateWordSearch rng words size).1 size w := by
  intro w hw
  obtain ⟨_, _, htrace, _⟩ :=
    runFrom_full rng size (sortWordsDesc words) (initState size) (initState_wf size)
  have h1 := htrace hsize (fun v hv => absurd hv (List.not_mem_nil v)) w hw
  exact traceable_mono _ _ size w (fillEmptyCells_refines rng _ _) h1

theorem claim1_witness :
    0 < 5 ∧ traceable (generateWordSearch rngZero [catWord] 5).1 5 catWord :=
  ⟨by decide,
   claim1_placed_words_traceable rngZero [catWord] 5 (by decide) catWord (by decide)⟩

/-- C2: for a positive `size` and uppercase input words (the spec's data model
makes every `Word` a sequence of uppercase letters), the returned grid is a
`size × size` square whose every cell holds exactly one letter `A`–`Z`; no
cell is left unset, including when the word list is empty or no word fits. -/
theorem claim2_grid_fully_filled (rng : Nat → Nat) (words : List Word) (size : Nat)
    (hsize : 0 < size) (hup : ∀ w ∈ words, ∀ c ∈ w, c ∈ letters) :
    (generateWordSearch rng words size).1.length = size ∧
    (∀ row ∈ (generateWordSearch rng words size).1, row.length = size) ∧
    (∀ row ∈ (generateWordSearch rng words size).1, ∀ cell ∈ row,
      ∃ c, cell = some c ∧ c ∈ letters) := by
  obtain ⟨⟨hlen, hrows⟩, _, _, hlet⟩ :=
    runFrom_full rng size (sortWordsDesc words) (initState size) (initState_wf size)
  have hgl : gridLetters (runFrom rng size (initState size) (sortWordsDesc words)).grid :=
    hlet (fun w hw => hup w ((mem_sortWordsDesc w (words)).mp hw)) (initState_letters size)
  refine ⟨?_, ?_, ?_⟩
  · rw [show (generateWordSearch rng words size).1 =
      (fillEmptyCells rng (runFrom rng size (initState size) (sortWordsDesc words)).grid
        (runFrom rng size (initState size) (sortWordsDesc words)).ctr).1 from rfl]
    rw [fillEmptyCells_length]
    exact hlen
  · intro row hrow
    obtain ⟨row0, hrow0, c0, rfl⟩ := fillEmptyCells_rows rng _ _ row hrow
    rw [fillRow_length]
    exact hrows row0 hrow0
  · intro row hrow cell hcell
    obtain ⟨row0, hrow0, c0, rfl⟩ := fillEmptyCells_rows rng _ _ row hrow
    obtain ⟨a, ha, hmem⟩ := fillRow_cells rng row0 c0 cell hcell
    rcases hmem with hmem | hmem
    · exact ⟨a, ha, hgl row0 hrow0 (some a) hmem a rfl⟩
    · exact ⟨a, ha, hmem⟩

theorem claim2_witness :
    0 < 5 ∧ (∀ w ∈ [catWord], ∀ c ∈ w, c ∈ letters) ∧
    (generateWordSearch rngZero [catWord] 5).1.length = 5 :=
  ⟨by decide, by decide,
   (claim2_grid_fully_filled rngZero [catWord] 5 (by decide) (by decide)).1⟩

/-- C3: once a cell holds a letter it is never changed: after any prefix of the
sorted word list has been processed, the grid reached so far is refined by the
final returned grid (every letter survives to the end); moreover a validity-
checked placement only refines the grid, and so does the noise-fill pass. -/
theorem claim3_letters_never_overwritten (rng : Nat → Nat) (words : List Word) (size : Nat)
    (l1 l2 : List Word) (hsplit : sortWordsDesc words = l1 ++ l2) :
    refines (runFrom rng size (initState size) l1).grid (generateWordSearch rng words size).1 ∧
    (∀ (g : Grid) (w : Word) (startX startY dx dy : Int),
      gridWF g size → (dx, dy) ∈ directions →
      canPlaceWord g w startX startY dx dy size = true →
      refines g (placeWord g w startX startY dx dy)) ∧
    (∀ (g : Grid) (ctr : Nat), refines g (fillEmptyCells rng g ctr).1) := by
  refine ⟨?_, ?_, fun g ctr => fillEmptyCells_refines rng g ctr⟩
  · have hwf1 := (runFrom_full rng size l1 (initState size) (initState_wf size)).1
    have h2 := runFrom_full rng size l2 (runFrom rng size (initState size) l1) hwf1
    have happ : runFrom rng size (initState size) (l1 ++ l2) =
        runFrom rng size (runFrom rng size (initState size) l1) l2 := by
      simp [runFrom, List.foldl_append]
    have hgoal : refines (runFrom rng size (initState size) l1).grid
        (fillEmptyCells rng (runFrom rng size (initState size) (sortWordsDesc words)).grid
          (runFrom rng size (initState size) (sortWordsDesc words)).ctr).1 := by
      rw [hsplit, happ]
      exact refines_trans _ _ _ h2.2.1 (fillEmptyCells_refines rng _ _)
    exact hgoal
  · intro g w startX startY dx dy hwf hd hc
    exact (placeWord_spec g w startX startY dx dy size hwf hd hc).1

theorem claim3_witness :
    refines (runFrom rngZero 5 (initState 5) []).grid
      (generateWordSearch rngZero [catWord] 5).1 ∧
    refines (initState 5).grid (placeWord (initState 5).grid catWord 0 0 0 1) ∧
    refines (initState 5).grid (fillEmptyCells rngZero (initState 5).grid 0).1 := by
  have h := claim3_letters_never_overwritten rngZero [catWord] 5 [] (sortWordsDesc [catWord]) rfl
  exact ⟨h.1,
    h.2.1 (initState 5).grid catWord 0 0 0 1 (initState_wf 5) (by decide) (by decide),
    h.2.2 (initState 5).grid 0⟩

/-- C4: the placement validity check succeeds exactly when every letter index
lands in bounds on a cell that is empty or already holds the required letter,
and fails otherwise. -/
theorem claim4_validity_check_iff (g : Grid) (w : Word) (startX startY dx dy : Int)
    (size : Nat) :
    canPlaceWord g w startX startY dx dy size = true ↔
      ∀ i, i < w.length →
        0 ≤ startX + (i : Int) * dx ∧ startX + (i : Int) * dx < size ∧
        0 ≤ startY + (i : Int) * dy ∧ startY + (i : Int) * dy < size ∧
        (getCell g (startX + (i : Int) * dx) (startY + (i : Int) * dy) = none ∨
         getCell g (startX + (i : Int) * dx) (startY + (i : Int) * dy) =
           some (w.getD i ' ')) :=
  canPlaceWord_iff g w startX startY dx dy size

/-- C5: a word longer than `size` never appears in `placedWords`; it is skipped
with a `tooLong` warning while grid, placed list and random counter are left
untouched, and the loop simply continues with the remaining words. -/
theorem claim5_too_long_words_skipped (rng : Nat → Nat) (words : List Word) (size : Nat) :
    (∀ w ∈ (generateWordSearch rng words size).2, w.length ≤ size) ∧
    (∀ (s : GenState) (w : Word), size < w.length →
      stepWord rng size s w =
        ⟨s.grid, s.placedWords, s.warnings ++ [Warning.tooLong w], s.ctr⟩) ∧
    (∀ (s : GenState) (w : Word) (rest : List Word),
      runFrom rng size s (w :: rest) = runFrom rng size (stepWord rng size s w) rest) := by
  refine ⟨?_, fun s w h => stepWord_tooLong rng size s w h, fun s w rest => rfl⟩
  intro w hw
  obtain ⟨t, ht, _, hlen⟩ :=
    runFrom_placed_spec rng size (sortWordsDesc words) (initState size)
  refine hlen w ?_
  have hw2 : w ∈ (runFrom rng size (initState size) (sortWordsDesc words)).placedWords := hw
  rw [ht] at hw2
  simpa [initState] using hw2

theorem claim5_witness :
    catWord.length ≤ 5 ∧
    stepWord rngZero 2 (initState 2) catWord =
      ⟨(initState 2).grid, (initState 2).placedWords,
       (initState 2).warnings ++ [Warning.tooLong catWord], (initState 2).ctr⟩ :=
  ⟨(claim5_too_long_words_skipped rngZero [catWord] 5).1 catWord (by decide),
   (claim5_too_long_words_skipped rngZero [] 2).2.1 (initState 2) catWord (by decide)⟩

/-- C6: for a word that passes the length check, the retry loop makes at most
100 attempts (three random draws each, so the counter advances by at most
`3 * maxAttempts`); if the first sampled candidate is valid the word is placed
immediately and retrying stops after exactly one attempt; if all 100 attempts
fail the word is skipped with a `placementFailed` warning, the grid and placed
list are unchanged, and generation continues normally with the rest. -/
theorem claim6_retry_budget (rng : Nat → Nat) (size : Nat) (w : Word) (s : GenState)
    (hlen : w.length ≤ size) :
    ((stepWord rng size s w).ctr ≤ s.ctr + 3 * maxAttempts) ∧
    (canPlaceWord s.grid w ((rng (s.ctr + 1) % size : Nat) : Int)
        ((rng (s.ctr + 2) % size : Nat) : Int)
        (directions.getD (rng s.ctr % directions.length) (0, 0)).1
        (directions.getD (rng s.ctr % directions.length) (0, 0)).2 size = true →
      stepWord rng size s w =
        ⟨placeWord s.grid w ((rng (s.ctr + 1) % size : Nat) : Int)
            ((rng (s.ctr + 2) % size : Nat) : Int)
            (directions.getD (rng s.ctr % directions.length) (0, 0)).1
            (directions.getD (rng s.ctr % directions.length) (0, 0)).2,
         s.placedWords ++ [w], s.warnings, s.ctr + 3⟩) ∧
    ((tryPlaceWord rng size w maxAttempts s.grid s.ctr).2.1 = false →
      stepWord rng size s w =
        ⟨s.grid, s.placedWords, s.warnings ++ [Warning.placementFailed w],
         (tryPlaceWord rng size w maxAttempts s.grid s.ctr).2.2⟩) ∧
    (∀ rest, runFrom rng size s (w :: rest) = runFrom rng size (stepWord rng size s w) rest) := by
  have hnotlt : ¬size < w.length := Nat.not_lt.mpr hlen
  refine ⟨?_, ?_, ?_, fun rest => rfl⟩
  · have hle := tryPlaceWord_ctr_le rng size w maxAttempts s.grid s.ctr
    unfold stepWord
    rw [if_neg hnotlt]
    rcases htp : tryPlaceWord rng size w maxAttempts s.grid s.ctr with ⟨g2, b, c2⟩
    rw [htp] at hle
    cases b <;> simpa using hle
  · intro hcan
    have h100 : tryPlaceWord rng size w maxAttempts s.grid s.ctr =
        (placeWord s.grid w ((rng (s.ctr + 1) % size : Nat) : Int)
          ((rng (s.ctr + 2) % size : Nat) : Int)
          (directions.getD (rng s.ctr % directions.length) (0, 0)).1
          (directions.getD (rng s.ctr % directions.length) (0, 0)).2, true, s.ctr + 3) := by
      have hma : maxAttempts = 99 + 1 := rfl
      rw [hma, tryPlaceWord_succ, if_pos hcan]
    unfold stepWord
    rw [if_neg hnotlt, h100]
  · intro hfalse
    have hgrid := tryPlaceWord_false_grid rng size w maxAttempts s.grid s.ctr hfalse
    unfold stepWord
    rw [if_neg hnotlt]
    rcases htp : tryPlaceWord rng size w maxAttempts s.grid s.ctr with ⟨g2, b, c2⟩
    rw [htp] at hfalse hgrid
    cases b
    · simp only at hgrid
      rw [hgrid]
    · exact absurd hfalse (by simp)

theorem claim6_witness :
    ((stepWord rngZero 5 (initState 5) catWord).ctr ≤ (initState 5).ctr + 3 * maxAttempts) ∧
    (stepWord rngZero 5 (initState 5) catWord =
      ⟨placeWord (initState 5).grid catWord
          ((rngZero ((initState 5).ctr + 1) % 5 : Nat) : Int)
          ((rngZero ((initState 5).ctr + 2) % 5 : Nat) : Int)
          (directions.getD (rngZero (initState 5).ctr % directions.length) (0, 0)).1
          (directions.getD (rngZero (initState 5).ctr % directions.length) (0, 0)).2,
       (initState 5).placedWords ++ [catWord], (initState 5).warnings,
       (initState 5).ctr + 3⟩) ∧
    (stepWord rngZero 1 ⟨[[some 'B']], [], [], 0⟩ ['A'] =
      ⟨(⟨[[some 'B']], [], [], 0⟩ : GenState).grid,
       (⟨[[some 'B']], [], [], 0⟩ : GenState).placedWords,
       (⟨[[some 'B']], [], [], 0⟩ : GenState).warnings ++ [Warning.placementFailed ['A']],
       (tryPlaceWord rngZero 1 ['A'] maxAttempts
         (⟨[[some 'B']], [], [], 0⟩ : GenState).grid
         (⟨[[some 'B']], [], [], 0⟩ : GenState).ctr).2.2⟩) :=
  ⟨(claim6_retry_budget rngZero 5 catWord (initState 5) (by decide)).1,
   (claim6_retry_budget rngZero 5 catWord (initState 5) (by decide)).2.1 (by decide),
   (claim6_retry_budget rngZero 1 ['A'] ⟨[[some 'B']], [], [], 0⟩ (by decide)).2.2.1
     (by decide)⟩

/-- C7: the generator processes the words sorted by descending length with a
stable sort (for every length `n`, the words of length `n` keep their input
order), and the returned `placedWords` list is a subsequence of that sorted
list, i.e. it is in longest-first processing order, not input order. -/
theorem claim7_processing_order (rng : Nat → Nat) (words : List Word) (size : Nat) :
    (sortWordsDesc words).Pairwise (fun a b => b.length ≤ a.length) ∧
    (∀ n, (sortWordsDesc words).filter (fun v => v.length == n) =
      words.filter (fun v => v.length == n)) ∧
    List.Sublist (generateWordSearch rng words size).2 (sortWordsDesc words) := by
  refine ⟨sortWordsDesc_pairwise words, fun n => filter_sortWordsDesc n words, ?_⟩
  obtain ⟨t, ht, hsub, _⟩ :=
    runFrom_placed_spec rng size (sortWordsDesc words) (initState size)
  have h2 : (generateWordSearch rng words size).2 = t := by
    have ht2 : (runFrom rng size (initState size) (sortWordsDesc words)).placedWords =
        [] ++ t := ht
    simpa using ht2
  rw [h2]
  exact hsub

/-- C8: given its random source, the generator is deterministic — two runs
with identical random streams, word lists and sizes return identical grids and
identical placed-word lists.  In the embedding the generator is a pure
function of these three inputs, which is exactly this statement. -/
theorem claim8_deterministic (rng1 rng2 : Nat → Nat) (words1 words2 : List Word)
    (size1 size2 : Nat) (hr : rng1 = rng2) (hw : words1 = words2) (hs : size1 = size2) :
    generateWordSearch rng1 words1 size1 = generateWordSearch rng2 words2 size2 := by
  rw [hr, hw, hs]

theorem claim8_witness :
    generateWordSearch rngZero [catWord] 5 = generateWordSearch rngZero [catWord] 5 :=
  claim8_deterministic rngZero rngZero [catWord] [catWord] 5 5 rfl rfl rfl

/-- C9: both renderers split the placed list into a left column of exactly
`⌈n/2⌉` words and a right column of exactly `⌊n/2⌋` words whose concatenation
is the placed list again, and the HTML and direct-PDF splits are identical. -/
theorem claim9_column_split (placed : List Word) :
    (splitColumnsHTML placed).1.length = (placed.length + 1) / 2 ∧
    (splitColumnsHTML placed).2.length = placed.length / 2 ∧
    (splitColumnsHTML placed).1 ++ (splitColumnsHTML placed).2 = placed ∧
    splitColumnsHTML placed = splitColumnsPDF placed := by
  refine ⟨?_, ?_, ?_, rfl⟩
  · simp only [splitColumnsHTML, List.length_take]
    omega
  · simp only [splitColumnsHTML, List.length_drop]
    omega
  · simp only [splitColumnsHTML]
    exact List.take_append_drop _ placed

/-- C10: `generateWordSearch` never mutates its `words` argument: line 48
copies the array with a spread before sorting, so on the heap model the
caller's array is bit-for-bit unchanged after the call, and the result equals
the pure generator applied to the caller's words. -/
theorem claim10_input_words_unchanged (rng : Nat → Nat) (h : Heap) (src fresh size : Nat)
    (hne : fresh ≠ src) :
    (generateWordSearchHeap rng h src fresh size).2 src = h src ∧
    (generateWordSearchHeap rng h src fresh size).1 = generateWordSearch rng (h src) size := by
  constructor
  · have hsrc : spreadAndSort h src fresh src = h src := by
      unfold spreadAndSort
      rw [if_neg (fun he => hne he.symm)]
    exact hsrc
  · have hfresh : spreadAndSort h src fresh fresh = sortWordsDesc (h src) := by
      unfold spreadAndSort
      rw [if_pos rfl]
    unfold generateWordSearchHeap generateWordSearch
    rw [hfresh]

theorem claim10_witness :
    (generateWordSearchHeap rngZero (fun _ => [catWord]) 0 1 5).2 0 = [catWord] ∧
    (generateWordSearchHeap rngZero (fun _ => [catWord]) 0 1 5).1 =
      generateWordSearch rngZero [catWord] 5 :=
  claim10_input_words_unchanged rngZero (fun _ => [catWord]) 0 1 5 (by decide)
